import Mathlib

/-!
Verification development for the patch-to-edit pipeline of
`src/formatters/base.ts`: the diff data model, the edit synthesizer
`getTextEditsInternal`, the patch parser `patch_fromText`, and the
pre-processing / orchestration in `getTextEditsFromPatch`.

JavaScript strings are modelled as `List Char`; JS numbers used as line
indices are modelled as `Int` (the parser can produce negative `start1`),
and character columns as `Nat` (only ever incremented from 0).
-/

namespace CocPyright

/-- The `os.EOL` terminator on the platform the code runs on (modelled as `"\n"`). -/
def EOL : List Char := ['\n']

/-- The constant `NEW_LINE_LENGTH = EOL.length` (base.ts line 16). -/
def NEW_LINE_LENGTH : Nat := EOL.length

/-- Diff operation tags from `diff-match-patch`:
`DIFF_DELETE = -1`, `DIFF_INSERT = 1`, `DIFF_EQUAL = 0`. -/
inductive DiffOp where
  | delete
  | insert
  | equal
deriving DecidableEq, Repr

/-- One diff primitive: operation tag plus text payload
(the `Diff` tuple `[number, string]`). -/
abbrev DiffPrim := DiffOp × List Char

/-- The `EditAction` enumeration (base.ts lines 51-55). -/
inductive EditAction where
  | Delete
  | Insert
  | Replace
deriving DecidableEq, Repr

/-- An LSP `Position`: zero-based line and character. The line is an `Int`
because the synthesizer copies the parser's `start1`, which JS arithmetic
can drive negative on degenerate headers. -/
structure Position where
  line : Int
  character : Nat
deriving DecidableEq, Repr

/-- The `Edit` class (base.ts lines 65-92).  `end` is only assigned while
handling Delete primitives, so it is modelled as an `Option`; `text`
starts empty. -/
structure Edit where
  action : EditAction
  start : Position
  endPos : Option Position
  text : List Char
deriving DecidableEq, Repr

/-- The `Patch` class / `patch_obj` (base.ts lines 57-63). -/
structure Patch where
  diffs : List DiffPrim
  start1 : Int
  start2 : Int
  length1 : Nat
  length2 : Nat
deriving DecidableEq, Repr

/-! ## Edit synthesizer (`getTextEditsInternal`, base.ts lines 308-369) -/

/-- The inner character walk of `getTextEditsInternal` (lines 321-328):
advance `(line, character)` over a payload, resetting the column and
bumping the line at each newline. -/
def advanceChar : Int → Nat → List Char → Int × Nat
  | line, character, [] => (line, character)
  | line, character, c :: rest =>
    if c = '\n' then advanceChar (line + 1) 0 rest
    else advanceChar line (character + 1) rest

/-- Split on `/\r?\n/g` (used for `before.split` at line 312). -/
def splitRN : List Char → List (List Char)
  | [] => [[]]
  | '\r' :: '\n' :: rest => [] :: splitRN rest
  | '\n' :: rest => [] :: splitRN rest
  | c :: rest =>
    match splitRN rest with
    | [] => [[c]]
    | l :: ls => (c :: l) :: ls

/-- Initial `character` of the synthesizer cursor (lines 310-314): zero,
plus — when `line > 0` — the length-plus-terminator of every line of
`before` whose index is below `line`. -/
def initialCharacter (before : List Char) (line : Int) : Nat :=
  if line > 0 then
    ((splitRN before).enum.filter (fun p => (p.1 : Int) < line)).foldl
      (fun ch p => ch + p.2.length + NEW_LINE_LENGTH) 0
  else 0

/-- The main loop of `getTextEditsInternal` (lines 318-366), as explicit
state passing: remaining diffs, cursor `(line, character)`, the
edit-in-progress slot, and the accumulated `edits` array.  The `throw`
at line 336 becomes `Except.error`. -/
def processDiffs : List DiffPrim → Int → Nat → Option Edit → List Edit →
    Except String (List Edit)
  | [], _, _, edit, edits =>
    match edit with
    | some e => .ok (edits ++ [e])
    | none => .ok edits
  | (op, text) :: rest, line, character, edit, edits =>
    let start : Position := ⟨line, character⟩
    let p := advanceChar line character text
    match op with
    | .delete =>
      match edit with
      | none =>
        processDiffs rest p.1 p.2
          (some ⟨.Delete, start, some ⟨p.1, p.2⟩, []⟩) edits
      | some e =>
        if e.action = .Delete then
          processDiffs rest p.1 p.2 (some { e with endPos := some ⟨p.1, p.2⟩ }) edits
        else
          .error "cannot format due to an internal error."
    | .insert =>
      let e : Edit :=
        match edit with
        | none => ⟨.Insert, start, none, []⟩
        | some e => if e.action = .Delete then { e with action := .Replace } else e
      -- insert and replace edits are relative to the original document, so
      -- inserts reset the cursor to the pre-advance position (lines 350-351)
      processDiffs rest start.line start.character (some { e with text := e.text ++ text }) edits
    | .equal =>
      match edit with
      | some e => processDiffs rest p.1 p.2 none (edits ++ [e])
      | none => processDiffs rest p.1 p.2 none edits

/-- The function `getTextEditsInternal(before, diffs, startLine)` (base.ts 308-369). -/
def getTextEditsInternal (before : List Char) (diffs : List DiffPrim)
    (startLine : Int) : Except String (List Edit) :=
  processDiffs diffs startLine (initialCharacter before startLine) none []

/-! ## Patch parser (`patch_fromText`, base.ts lines 377-455) -/

/-- Split on the character class `/[\r\n]/` (line 383): every single `\r`
or `\n` is a separator, so a `\r\n` pair yields an empty line between. -/
def splitCRLF : List Char → List (List Char)
  | [] => [[]]
  | c :: rest =>
    if c = '\r' ∨ c = '\n' then [] :: splitCRLF rest
    else
      match splitCRLF rest with
      | [] => [[c]]
      | l :: ls => (c :: l) :: ls

/-- Longest leading run of decimal digits, with the remainder. -/
def takeDigits : List Char → List Char × List Char
  | [] => ([], [])
  | c :: rest =>
    if c.isDigit then
      match takeDigits rest with
      | (d, r) => (c :: d, r)
    else ([], c :: rest)

/-- JS `parseInt(m, 10)` on a digit string. -/
def digitsToNat (ds : List Char) : Nat :=
  ds.foldl (fun acc c => acc * 10 + (c.toNat - '0'.toNat)) 0

/-- Match `(\d+),?(\d*)` at the head of the input: the mandatory digit
group, the optional comma, the optional digit group, and the remainder. -/
def matchNumPair (cs : List Char) : Option (List Char × List Char × List Char) :=
  match takeDigits cs with
  | ([], _) => none
  | (d1, r1) =>
    let r2 := match r1 with
      | ',' :: t => t
      | _ => r1
    match takeDigits r2 with
    | (d2, r3) => some (d1, d2, r3)

/-- Match the hunk-header regex `^@@ -(\d+),?(\d*) \+(\d+),?(\d*) @@$`
(line 386), returning the four capture groups. -/
def matchHeader (cs : List Char) : Option (List Char × List Char × List Char × List Char) :=
  match cs with
  | '@' :: '@' :: ' ' :: '-' :: r =>
    match matchNumPair r with
    | none => none
    | some (m1, m2, r1) =>
      match r1 with
      | ' ' :: '+' :: r2 =>
        match matchNumPair r2 with
        | none => none
        | some (m3, m4, r3) =>
          if r3 = [' ', '@', '@'] then some (m1, m2, m3, m4) else none
      | _ => none
  | _ => none

/-- The length-omission normalization applied to one half of the header
(lines 395-404 for the origin half, 406-415 for the result half):
returns the `(start, length)` pair. -/
def headerHalf (mStart mLen : List Char) : Int × Nat :=
  if mLen = [] then ((digitsToNat mStart : Int) - 1, 1)
  else if mLen = ['0'] then ((digitsToNat mStart : Int), 0)
  else ((digitsToNat mStart : Int) - 1, digitsToNat mLen)

/-- Fresh `patch_obj` from a matched header (lines 393-415): both halves
run through the length-omission normalization, diffs start empty. -/
def patchFromHeader (m : List Char × List Char × List Char × List Char) : Patch :=
  ⟨[], (headerHalf m.1 m.2.1).1, (headerHalf m.2.2.1 m.2.2.2).1,
    (headerHalf m.1 m.2.1).2, (headerHalf m.2.2.1 m.2.2.2).2⟩

/-- The line loop of `patch_fromText` (lines 387-453).  The source is an
outer while-loop that requires a header line and an inner while-loop that
consumes signed content lines, breaking back to the outer loop when a `@`
line appears; the two loops visit each line exactly once, so they are
fused here into one pass.  `cur` is the patch currently being filled
(`none` only before the first header, i.e. when the next line is expected
to be a hunk header), `done` the completed patches in order.  All error
strings are those thrown at lines 390 and 449. -/
def parseLines : List (List Char) → Option Patch → List Patch → Except String (List Patch)
  | [], cur, done =>
    match cur with
    | some p => .ok (done ++ [p])
    | none => .ok done
  | l :: rest, cur, done =>
    match cur with
    | none =>
      match matchHeader l with
      | none => .error ("Invalid patch string: " ++ String.mk l)
      | some m => parseLines rest (some (patchFromHeader m)) done
    | some p =>
      let line := l.drop 1
      match l.head? with
      | none => parseLines rest (some p) done
      | some '-' => parseLines rest (some { p with diffs := p.diffs ++ [(.delete, line)] }) done
      | some '+' => parseLines rest (some { p with diffs := p.diffs ++ [(.insert, line)] }) done
      | some ' ' => parseLines rest (some { p with diffs := p.diffs ++ [(.equal, line)] }) done
      | some '@' =>
        -- start of the next patch: the outer loop reprocesses this line
        -- as a header (lines 442-444 then 388-390)
        match matchHeader l with
        | none => .error ("Invalid patch string: " ++ String.mk l)
        | some m => parseLines rest (some (patchFromHeader m)) (done ++ [p])
      | some c =>
        .error ("Invalid patch mode '" ++ String.mk [c] ++ "' in: " ++ String.mk line)

/-- The parser `patch_fromText(textline)` (lines 377-455): the empty string parses
to no patches; otherwise split on `[\r\n]` and run the line loop. -/
def patch_fromText (textline : List Char) : Except String (List Patch) :=
  if textline = [] then .ok []
  else parseLines (splitCRLF textline) none []

/-! ## Pipeline (`getTextEditsFromPatch`, base.ts lines 457-486) -/

/-- Index of the first occurrence of `"@@"` (JS `indexOf('@@')`). -/
def firstAtAt : List Char → Option Nat
  | [] => none
  | '@' :: '@' :: _ => some 0
  | _ :: rest => (firstAtAt rest).map (· + 1)

/-- Lines 458-461: when the patch begins with `---`, drop everything up
to the first `@@`.  JS `substring(indexOf('@@'))` keeps the whole string
when `indexOf` returns `-1`. -/
def stripHeaderBlock (patch : List Char) : List Char :=
  if ['-', '-', '-'].isPrefixOf patch then
    match firstAtAt patch with
    | some i => patch.drop i
    | none => patch
  else patch

/-- The characters of `\ No newline at end of file`. -/
def markerChars : List Char := ("\\ No newline at end of file").data

/-- Recognize the regex `\\ No newline at end of file[\r\n]` at the head
of the input, returning what follows the matched text. -/
def matchMarker (cs : List Char) : Option (List Char) :=
  if markerChars.isPrefixOf cs then
    match cs.drop markerChars.length with
    | '\r' :: rest => some rest
    | '\n' :: rest => some rest
    | _ => none
  else none

/-- Line 468: `patch.replace(/\\ No newline at end of file[\r\n]/, '')`.
The regex has no `g` flag, so only the first (leftmost) occurrence is
removed. -/
def stripFirstMarker : List Char → List Char
  | [] => []
  | c :: rest =>
    match matchMarker (c :: rest) with
    | some r => r
    | none => c :: stripFirstMarker rest

/-- Lines 477-481: append the platform terminator to every diff payload
before synthesis. -/
def attachEOL (diffs : List DiffPrim) : List DiffPrim :=
  diffs.map (fun d => (d.1, d.2 ++ EOL))

/-- The pre-parse text transformation performed by `getTextEditsFromPatch`
(lines 458-468): strip the file-header block, then the first
no-newline-marker occurrence. -/
def preprocess (patchText : List Char) : List Char :=
  stripFirstMarker (stripHeaderBlock patchText)

/-- The pipeline `getTextEditsFromPatch(before, patch)` (lines 457-486), kept at the
`Edit` level (the final `.apply()` materialization into editor ranges is
a per-edit pure mapping). -/
def getTextEditsFromPatch (before patchText : List Char) : Except String (List Edit) := do
  let patch := stripHeaderBlock patchText
  if patch.length = 0 then
    return []
  let patch := stripFirstMarker patch
  let patches ← patch_fromText patch
  if patches.length = 0 then
    Except.error "Unable to parse Patch string"
  else
    patches.foldlM (fun acc p => do
      let es ← getTextEditsInternal before (attachEOL p.diffs) p.start1
      return acc ++ es) []

/-! ## Derived notions used by the verification

Document order on positions, the offset semantics of positions against the
original document, and the meaning of applying a sorted edit sequence. -/

/-- Document order on positions: lexicographic on (line, character). -/
def posLe (p q : Position) : Prop :=
  p.line < q.line ∨ (p.line = q.line ∧ p.character ≤ q.character)

instance (p q : Position) : Decidable (posLe p q) := by
  unfold posLe; infer_instance

/-- The end of an edit's original-document span: `endPos` when set (Delete
and Replace), otherwise the point `start` (Insert edits never set `end`). -/
def editEnd (e : Edit) : Position :=
  e.endPos.getD e.start

/-- Offset of the start of line `k` in a document: length of the shortest
prefix containing `k` newlines (clamped to the document length). -/
def lineStartOffset : List Char → Nat → Nat
  | _, 0 => 0
  | [], _ + 1 => 0
  | c :: rest, k + 1 =>
    1 + (if c = '\n' then lineStartOffset rest k else lineStartOffset rest (k + 1))

/-- Character offset denoted by an LSP position in a document. -/
def posToOffset (doc : List Char) (p : Position) : Nat :=
  lineStartOffset doc p.line.toNat + p.character

def editStartOff (doc : List Char) (e : Edit) : Nat := posToOffset doc e.start

def editEndOff (doc : List Char) (e : Edit) : Nat := posToOffset doc (editEnd e)

/-- Apply a document-ordered, non-overlapping edit sequence to `doc`,
having already emitted everything before offset `n`: copy the unchanged
text up to each edit's start, emit its replacement text, and resume after
its end.  Insert edits have an empty span, Delete edits empty text. -/
def applyEditsFrom (doc : List Char) (n : Nat) : List Edit → List Char
  | [] => doc.drop n
  | e :: rest =>
    (doc.drop n).take (editStartOff doc e - n) ++ e.text ++
      applyEditsFrom doc (editEndOff doc e) rest

/-- Apply an edit sequence (atomically) to the whole document. -/
def applyEdits (doc : List Char) (edits : List Edit) : List Char :=
  applyEditsFrom doc 0 edits

/-- Concatenation of the payloads of all Equal and Delete primitives: the
origin-document side described by a diff sequence. -/
def originConcat : List DiffPrim → List Char
  | [] => []
  | (op, t) :: rest => (if op = .insert then [] else t) ++ originConcat rest

/-- Concatenation of the payloads of all Equal and Insert primitives: the
result document described by a diff sequence. -/
def resultConcat : List DiffPrim → List Char
  | [] => []
  | (op, t) :: rest => (if op = .delete then [] else t) ++ resultConcat rest

/-- The cursor `(l, c)` denotes offset `n` of `doc`: `n` is in range, the
prefix before `n` contains exactly `l` newlines, and `c` is the distance
from the start of line `l`. -/
def ValidPos (doc : List Char) (l : Int) (c n : Nat) : Prop :=
  n ≤ doc.length ∧ l = ((doc.take n).count '\n' : Int) ∧
    n = lineStartOffset doc ((doc.take n).count '\n') + c

/-- Invariant of the edit-in-progress slot: its start denotes offset `s`,
and its accumulated span ends at the current cursor offset `n` (for an
Insert edit the span is empty and the cursor is pinned at `s`). -/
def OpenEditInv (doc : List Char) (e : Edit) (s n : Nat) : Prop :=
  ValidPos doc e.start.line e.start.character s ∧ s ≤ n ∧
    (match e.action, e.endPos with
     | .Insert, none => n = s
     | .Delete, some q => ValidPos doc q.line q.character n
     | .Replace, some q => ValidPos doc q.line q.character n
     | _, _ => False)

/-- Returns `true` on `Except.error`. -/
def exceptIsError {ε α : Type} : Except ε α → Bool
  | .error _ => true
  | .ok _ => false

/-- Open-edit flag abstraction for the fail-fast analysis: is an edit in
progress whose action is not Delete? -/
def editOpenNonDelete : Option Edit → Bool
  | none => false
  | some e => e.action ≠ EditAction.Delete

/-- Spec-worded error condition of the synthesizer: scanning the operation
tags, a Delete is encountered while the edit in progress is insert-like
(an Insert, or a Delete already upgraded to Replace), i.e. a Delete
follows an Insert with no intervening Equal.  The flag records whether
such an edit is open. -/
def hasBadDelete : Bool → List DiffOp → Bool
  | _, [] => false
  | f, .delete :: rest => f || hasBadDelete false rest
  | _, .insert :: rest => hasBadDelete true rest
  | _, .equal :: rest => hasBadDelete false rest

/-- Index form of the fail-fast trigger restricted to a suffix: some
Delete occurs before any Equal. -/
def deleteBeforeEqual (ops : List DiffOp) : Prop :=
  ∃ j, j < ops.length ∧ ops.get? j = some DiffOp.delete ∧
    ∀ k, k < j → ops.get? k ≠ some DiffOp.equal

/-- Literal index form of the claim's error condition: some Delete
primitive follows some Insert primitive with no Equal in between. -/
def insertThenDelete (ops : List DiffOp) : Prop :=
  ∃ i j, i < j ∧ j < ops.length ∧ ops.get? i = some DiffOp.insert ∧
    ops.get? j = some DiffOp.delete ∧ ∀ k, i < k → k < j → ops.get? k ≠ some DiffOp.equal

/-- Spec-worded acceptable content line: the leading sign character is
one of `-`, `+`, space, `@`, or the line is empty. -/
def contentLineOk (l : List Char) : Bool :=
  match l.head? with
  | none => true
  | some c => c = '-' || c = '+' || c = ' ' || c = '@'

/-- Spec-worded failure condition of the patch parser: a line expected to
be a hunk header (the first line when the mode flag is set, or any
content line starting with `@`) fails the header grammar, or a content
line's leading sign character is invalid. -/
def specFails : Bool → List (List Char) → Bool
  | _, [] => false
  | true, l :: rest => (matchHeader l).isNone || specFails false rest
  | false, l :: rest =>
    if l.head? = some '@' then (matchHeader l).isNone || specFails false rest
    else if contentLineOk l then specFails false rest
    else true

/-- Does the text contain an occurrence of the no-newline marker followed
by a line terminator (the pattern the pre-processing is meant to strip)? -/
def containsMarker : List Char → Bool
  | [] => false
  | c :: rest => (matchMarker (c :: rest)).isSome || containsMarker rest

/-! ## Theorems -/

theorem processDiffs_insert_run (ts : List (List Char)) :
    ∀ (l : Int) (c : Nat) (e : Edit) (rest : List DiffPrim) (edits : List Edit),
      e.action ≠ EditAction.Delete →
      processDiffs (ts.map (fun t => (DiffOp.insert, t)) ++ rest) l c (some e) edits =
        processDiffs rest l c (some { e with text := e.text ++ ts.flatten }) edits := by
  induction ts with
  | nil => intro l c e rest edits _; simp
  | cons t ts ih =>
    intro l c e rest edits h
    simp only [List.map_cons, List.cons_append, processDiffs, h, if_false, List.append_eq]
    rw [ih l c { e with text := e.text ++ t } rest edits h]
    simp [List.append_assoc]

/-- Claim C3: a Delete primitive immediately followed by an Insert (no
intervening Equal) yields a single Replace edit whose start is the
Delete's start, whose end spans the deleted original text, and whose
replacement text is the Insert's payload; in particular
`[Delete("foo"), Insert("bar")]` at line 0 gives exactly one Replace edit
replacing `"foo"` with `"bar"`. -/
theorem delete_insert_merges_to_replace :
    (∀ (l : Int) (c : Nat) (t1 t2 : List Char) (rest : List DiffPrim) (edits : List Edit),
      processDiffs ((DiffOp.delete, t1) :: (DiffOp.insert, t2) :: rest) l c none edits =
        processDiffs rest (advanceChar l c t1).1 (advanceChar l c t1).2
          (some ⟨EditAction.Replace, ⟨l, c⟩,
            some ⟨(advanceChar l c t1).1, (advanceChar l c t1).2⟩, t2⟩) edits) ∧
    getTextEditsInternal (String.data "foo")
        [(DiffOp.delete, String.data "foo"), (DiffOp.insert, String.data "bar")] 0 =
      .ok [⟨EditAction.Replace, ⟨0, 0⟩, some ⟨0, 3⟩, String.data "bar"⟩] := by
  refine ⟨?_, rfl⟩
  intro l c t1 t2 rest edits
  simp [processDiffs]

/-- Claim C4: processing an Insert primitive does not advance the
original-document cursor: the continuation runs at the same `(line,
character)` as before the Insert.  Concretely, for document `"a\nb\n"`
and primitives `[Equal "a\n", Insert "x\n", Equal "b\n"]`, the
`Equal "b\n"` primitive is processed at original line 1 (not 2), and the
synthesized Insert edit is anchored at line 1. -/
theorem insert_preserves_cursor :
    (∀ (l : Int) (c : Nat) (t : List Char) (rest : List DiffPrim)
        (edit : Option Edit) (edits : List Edit),
      ∃ e : Edit,
        processDiffs ((DiffOp.insert, t) :: rest) l c edit edits =
          processDiffs rest l c (some e) edits) ∧
    processDiffs [(DiffOp.equal, String.data "a\n"), (DiffOp.insert, String.data "x\n"),
        (DiffOp.equal, String.data "b\n")] 0 0 none [] =
      processDiffs [(DiffOp.equal, String.data "b\n")] 1 0
        (some ⟨EditAction.Insert, ⟨1, 0⟩, none, String.data "x\n"⟩) [] ∧
    getTextEditsInternal (String.data "a\nb\n")
        [(DiffOp.equal, String.data "a\n"), (DiffOp.insert, String.data "x\n"),
         (DiffOp.equal, String.data "b\n")] 0 =
      .ok [⟨EditAction.Insert, ⟨1, 0⟩, none, String.data "x\n"⟩] := by
  refine ⟨?_, rfl, rfl⟩
  intro l c t rest edit edits
  cases edit with
  | none => exact ⟨⟨EditAction.Insert, ⟨l, c⟩, none, [] ++ t⟩, by simp [processDiffs]⟩
  | some e =>
    by_cases h : e.action = EditAction.Delete
    · exact ⟨{ e with action := EditAction.Replace, text := e.text ++ t },
        by simp [processDiffs, h]⟩
    · exact ⟨{ e with text := e.text ++ t }, by simp [processDiffs, h]⟩

theorem takeDigits_append (d r : List Char) (hd : ∀ c ∈ d, c.isDigit = true)
    (hr : match r with | [] => True | c :: _ => c.isDigit = false) :
    takeDigits (d ++ r) = (d, r) := by
  induction d with
  | nil =>
    cases r with
    | nil => rfl
    | cons c r0 =>
      simp only [List.nil_append, takeDigits, hr]
      rfl
  | cons c d ih =>
    have hc : c.isDigit = true := hd c (List.mem_cons_self c d)
    have hrest : ∀ x ∈ d, x.isDigit = true := fun x hx => hd x (List.mem_cons_of_mem c hx)
    simp only [List.cons_append, takeDigits, hc, if_true, List.append_eq]
    rw [ih hrest]

theorem matchNumPair_general (d1 d2 rest : List Char) (h1 : d1 ≠ [])
    (a1 : ∀ c ∈ d1, c.isDigit = true) (a2 : ∀ c ∈ d2, c.isDigit = true)
    (hrest : match rest with | [] => True | c :: _ => c.isDigit = false ∧ c ≠ ',') :
    matchNumPair (d1 ++ ',' :: (d2 ++ rest)) = some (d1, d2, rest) := by
  have ht1 : takeDigits (d1 ++ ',' :: (d2 ++ rest)) = (d1, ',' :: (d2 ++ rest)) :=
    takeDigits_append d1 _ a1 (by simp)
  have ht2 : takeDigits (d2 ++ rest) = (d2, rest) := by
    refine takeDigits_append d2 rest a2 ?_
    cases rest with
    | nil => trivial
    | cons c r0 => exact hrest.1
  unfold matchNumPair
  rw [ht1]
  cases d1 with
  | nil => exact absurd rfl h1
  | cons x xs => simp only [ht2]

theorem matchHeader_general (d1 d2 d3 d4 : List Char) (h1 : d1 ≠ []) (h3 : d3 ≠ [])
    (a1 : ∀ c ∈ d1, c.isDigit = true) (a2 : ∀ c ∈ d2, c.isDigit = true)
    (a3 : ∀ c ∈ d3, c.isDigit = true) (a4 : ∀ c ∈ d4, c.isDigit = true) :
    matchHeader ('@' :: '@' :: ' ' :: '-' ::
        (d1 ++ ',' :: (d2 ++ ' ' :: '+' :: (d3 ++ ',' :: (d4 ++ [' ', '@', '@']))))) =
      some (d1, d2, d3, d4) := by
  have hm1 := matchNumPair_general d1 d2 (' ' :: '+' :: (d3 ++ ',' :: (d4 ++ [' ', '@', '@'])))
    h1 a1 a2 (by exact ⟨by decide, by decide⟩)
  have hm2 := matchNumPair_general d3 d4 [' ', '@', '@'] h3 a3 a4 (by exact ⟨by decide, by decide⟩)
  simp only [matchHeader, hm1, hm2]
  simp

theorem digit_not_terminator {c : Char} (h : c.isDigit = true) : ¬(c = '\r' ∨ c = '\n') := by
  rintro (rfl | rfl) <;> simp [Char.isDigit] at h

theorem splitCRLF_single (cs : List Char) (h : ∀ c ∈ cs, ¬(c = '\r' ∨ c = '\n')) :
    splitCRLF cs = [cs] := by
  induction cs with
  | nil => rfl
  | cons c rest ih =>
    have hc := h c (List.mem_cons_self c rest)
    have hrest := fun x hx => h x (List.mem_cons_of_mem c hx)
    simp only [splitCRLF, if_neg hc, ih hrest]

/-- Claim C5: the length-omission rule applies independently to each hunk
header half: omitted length ⇒ length 1 with start decremented; literal
`0` ⇒ length 0 with start unchanged; explicit nonzero length ⇒ that
length with start decremented.  In particular `@@ -5 +5 @@`,
`@@ -5,0 +5 @@` and `@@ -5,3 +5,3 @@` parse to origin pairs `(4,1)`,
`(5,0)` and `(4,3)`. -/
theorem header_length_omission :
    (∀ m1 : List Char, headerHalf m1 [] = ((digitsToNat m1 : Int) - 1, 1)) ∧
    (∀ m1 : List Char, headerHalf m1 ['0'] = ((digitsToNat m1 : Int), 0)) ∧
    (∀ m1 m2 : List Char, m2 ≠ [] → m2 ≠ ['0'] →
      headerHalf m1 m2 = ((digitsToNat m1 : Int) - 1, digitsToNat m2)) ∧
    patch_fromText (String.data "@@ -5 +5 @@") = .ok [⟨[], 4, 4, 1, 1⟩] ∧
    patch_fromText (String.data "@@ -5,0 +5 @@") = .ok [⟨[], 5, 4, 0, 1⟩] ∧
    patch_fromText (String.data "@@ -5,3 +5,3 @@") = .ok [⟨[], 4, 4, 3, 3⟩] ∧
    (∀ d1 d2 d3 d4 : List Char, d1 ≠ [] → d3 ≠ [] →
      (∀ c ∈ d1, c.isDigit = true) → (∀ c ∈ d2, c.isDigit = true) →
      (∀ c ∈ d3, c.isDigit = true) → (∀ c ∈ d4, c.isDigit = true) →
      patch_fromText ('@' :: '@' :: ' ' :: '-' ::
          (d1 ++ ',' :: (d2 ++ ' ' :: '+' :: (d3 ++ ',' :: (d4 ++ [' ', '@', '@']))))) =
        .ok [⟨[], (headerHalf d1 d2).1, (headerHalf d3 d4).1,
              (headerHalf d1 d2).2, (headerHalf d3 d4).2⟩]) := by
  refine ⟨fun m1 => by simp [headerHalf], fun m1 => by simp [headerHalf],
    fun m1 m2 h1 h2 => by simp [headerHalf, h1, h2], rfl, rfl, rfl, ?_⟩
  intro d1 d2 d3 d4 h1 h3 a1 a2 a3 a4
  have hline : ∀ c ∈ ('@' :: '@' :: ' ' :: '-' ::
      (d1 ++ ',' :: (d2 ++ ' ' :: '+' :: (d3 ++ ',' :: (d4 ++ [' ', '@', '@']))))),
      ¬(c = '\r' ∨ c = '\n') := by
    intro c hc h
    have hdig : c.isDigit = true → False := fun hd => digit_not_terminator hd h
    have hlit : (c = '@' ∨ c = ' ' ∨ c = '-' ∨ c = '+' ∨ c = ',') → False := by
      intro hl
      rcases h with rfl | rfl <;> revert hl <;> decide
    simp only [List.mem_cons, List.mem_append, List.not_mem_nil, or_false] at hc
    casesm* _ ∨ _
    all_goals first
      | exact hdig (a1 c (by assumption))
      | exact hdig (a2 c (by assumption))
      | exact hdig (a3 c (by assumption))
      | exact hdig (a4 c (by assumption))
      | exact hlit (by tauto)
  unfold patch_fromText
  rw [if_neg (by simp), splitCRLF_single _ hline]
  simp only [parseLines, matchHeader_general d1 d2 d3 d4 h1 h3 a1 a2 a3 a4]
  rfl

theorem header_length_omission_witness :
    ((['3'] : List Char) ≠ [] ∧ (['3'] : List Char) ≠ ['0'] ∧
      headerHalf ['5'] ['3'] = (4, 3)) ∧
    patch_fromText (String.data "@@ -10,2 +3,4 @@") = .ok [⟨[], 9, 2, 2, 4⟩] :=
  ⟨⟨by decide, by decide,
    header_length_omission.2.2.1 ['5'] ['3'] (by decide) (by decide)⟩,
    (by
      exact header_length_omission.2.2.2.2.2.2 ['1', '0'] ['2'] ['3'] ['4']
        (by decide) (by decide) (by decide) (by decide) (by decide) (by decide))⟩

/-- Claim C10: a run of two or more consecutive Insert primitives (no
intervening Equal or Delete) accumulates into a single Insert edit
anchored where the first Insert began, whose text is the concatenation of
all the payloads in order. -/
theorem consecutive_inserts_accumulate :
    (∀ (ts : List (List Char)) (l : Int) (c : Nat) (rest : List DiffPrim)
        (edits : List Edit), ts ≠ [] →
      processDiffs (ts.map (fun t => (DiffOp.insert, t)) ++ rest) l c none edits =
        processDiffs rest l c (some ⟨EditAction.Insert, ⟨l, c⟩, none, ts.flatten⟩) edits) ∧
    getTextEditsInternal []
        [(DiffOp.insert, String.data "x\n"), (DiffOp.insert, String.data "y\n")] 0 =
      .ok [⟨EditAction.Insert, ⟨0, 0⟩, none, String.data "x\ny\n"⟩] := by
  refine ⟨?_, rfl⟩
  intro ts l c rest edits hts
  cases ts with
  | nil => exact absurd rfl hts
  | cons t ts =>
    simp only [List.map_cons, List.cons_append, processDiffs, List.append_eq]
    rw [processDiffs_insert_run ts l c ⟨EditAction.Insert, ⟨l, c⟩, none, [] ++ t⟩ rest edits
      (by simp)]
    simp

theorem consecutive_inserts_accumulate_witness :
    ([String.data "x", String.data "y"] ≠ ([] : List (List Char))) ∧
      processDiffs ([String.data "x", String.data "y"].map
          (fun t => (DiffOp.insert, t)) ++ []) 0 0 none [] =
        processDiffs [] 0 0
          (some ⟨EditAction.Insert, ⟨0, 0⟩, none,
            ([String.data "x", String.data "y"]).flatten⟩) [] :=
  ⟨by decide, consecutive_inserts_accumulate.1 [String.data "x", String.data "y"]
    0 0 [] [] (by decide)⟩

theorem enumFrom_filter_lt (s : Int) (ls : List (List Char)) :
    ∀ k : Nat, (List.enumFrom k ls).filter (fun p => decide ((p.1 : Int) < s)) =
      List.enumFrom k (ls.take (s.toNat - k)) := by
  induction ls with
  | nil => intro k; simp
  | cons a ls ih =>
    intro k
    rw [List.enumFrom_cons]
    by_cases hk : (k : Int) < s
    · have hk' : k < s.toNat := by omega
      have : s.toNat - k = (s.toNat - (k + 1)) + 1 := by omega
      rw [this, List.take_succ_cons, List.enumFrom_cons]
      simp only [List.filter_cons, decide_eq_true hk, if_pos]
      rw [ih (k + 1)]
    · have hk' : s.toNat - k = 0 := by omega
      rw [hk', List.take_zero]
      simp only [List.filter_cons]
      rw [if_neg (by simpa using hk)]
      rw [ih (k + 1)]
      have : s.toNat - (k + 1) = 0 := by omega
      simp [this]

theorem enumFrom_foldl_len (ls : List (List Char)) :
    ∀ (k acc : Nat),
      (List.enumFrom k ls).foldl (fun ch p => ch + p.2.length + NEW_LINE_LENGTH) acc =
        acc + (ls.map (fun l => l.length + NEW_LINE_LENGTH)).sum := by
  induction ls with
  | nil => intro k acc; simp
  | cons a ls ih =>
    intro k acc
    rw [List.enumFrom_cons, List.foldl_cons, ih (k + 1)]
    simp only [List.map_cons, List.sum_cons]
    omega

/-- Claim C6: the synthesizer's cursor starts at line `start1`; its initial
`character` is the sum, over every original line preceding `start1`, of
that line's length plus the terminator length — and plain `(0, 0)` when
`start1` is not positive. -/
theorem cursor_initialization :
    ∀ (before : List Char) (diffs : List DiffPrim) (startLine : Int),
      getTextEditsInternal before diffs startLine =
        processDiffs diffs startLine
          (if 0 < startLine then
            (((splitRN before).take startLine.toNat).map
              (fun l => l.length + NEW_LINE_LENGTH)).sum
          else 0) none [] := by
  intro before diffs startLine
  unfold getTextEditsInternal initialCharacter
  by_cases h : 0 < startLine
  · rw [if_pos h, if_pos h]
    have := enumFrom_filter_lt startLine (splitRN before) 0
    simp only [Nat.sub_zero] at this
    rw [show (splitRN before).enum = List.enumFrom 0 (splitRN before) from rfl]
    rw [this, enumFrom_foldl_len]
    simp
  · rw [if_neg h, if_neg h]

theorem processDiffs_error_iff (diffs : List DiffPrim) :
    ∀ (l : Int) (c : Nat) (edit : Option Edit) (edits : List Edit),
      exceptIsError (processDiffs diffs l c edit edits) =
        hasBadDelete (editOpenNonDelete edit) (diffs.map Prod.fst) := by
  induction diffs with
  | nil =>
    intro l c edit edits
    cases edit <;> simp [processDiffs, exceptIsError, hasBadDelete]
  | cons d rest ih =>
    intro l c edit edits
    obtain ⟨op, t⟩ := d
    cases op with
    | delete =>
      cases edit with
      | none => simp [processDiffs, hasBadDelete, ih, editOpenNonDelete]
      | some e =>
        by_cases h : e.action = EditAction.Delete
        · simp [processDiffs, h, hasBadDelete, ih, editOpenNonDelete]
        · simp [processDiffs, h, hasBadDelete, ih, editOpenNonDelete, exceptIsError]
    | insert =>
      cases edit with
      | none => simp [processDiffs, hasBadDelete, ih, editOpenNonDelete]
      | some e =>
        by_cases h : e.action = EditAction.Delete <;>
          simp [processDiffs, h, hasBadDelete, ih, editOpenNonDelete]
    | equal =>
      cases edit with
      | none => simp [processDiffs, hasBadDelete, ih, editOpenNonDelete]
      | some e => simp [processDiffs, hasBadDelete, ih, editOpenNonDelete]

theorem dbe_cons_delete (ops : List DiffOp) : deleteBeforeEqual (DiffOp.delete :: ops) :=
  ⟨0, by simp, by simp, fun k hk => absurd hk (Nat.not_lt_zero k)⟩

theorem dbe_cons_insert (ops : List DiffOp) :
    deleteBeforeEqual (DiffOp.insert :: ops) ↔ deleteBeforeEqual ops := by
  constructor
  · rintro ⟨j, hj, hdel, hne⟩
    cases j with
    | zero => simp at hdel
    | succ j =>
      refine ⟨j, by simpa using hj, by simpa using hdel, ?_⟩
      intro k hk
      have := hne (k + 1) (by omega)
      simpa using this
  · rintro ⟨j, hj, hdel, hne⟩
    refine ⟨j + 1, by simpa using hj, by simpa using hdel, ?_⟩
    intro k hk
    cases k with
    | zero => simp
    | succ k => simpa using hne k (by omega)

theorem dbe_cons_equal (ops : List DiffOp) : ¬ deleteBeforeEqual (DiffOp.equal :: ops) := by
  rintro ⟨j, hj, hdel, hne⟩
  cases j with
  | zero => simp at hdel
  | succ j => exact hne 0 (by omega) (by simp)

theorem itd_cons_of_ne_insert (op : DiffOp) (ops : List DiffOp)
    (hop : op ≠ DiffOp.insert) :
    insertThenDelete (op :: ops) ↔ insertThenDelete ops := by
  constructor
  · rintro ⟨i, j, hij, hj, hins, hdel, hne⟩
    cases i with
    | zero =>
      rw [List.get?_cons_zero] at hins
      injection hins with hins
      exact absurd hins hop
    | succ i =>
      cases j with
      | zero => omega
      | succ j =>
        refine ⟨i, j, by omega, by simpa using hj, by simpa using hins,
          by simpa using hdel, ?_⟩
        intro k hk1 hk2
        simpa using hne (k + 1) (by omega) (by omega)
  · rintro ⟨i, j, hij, hj, hins, hdel, hne⟩
    refine ⟨i + 1, j + 1, by omega, by simpa using hj, by simpa using hins,
      by simpa using hdel, ?_⟩
    intro k hk1 hk2
    cases k with
    | zero => omega
    | succ k => simpa using hne k (by omega) (by omega)

theorem itd_cons_insert (ops : List DiffOp) :
    insertThenDelete (DiffOp.insert :: ops) ↔
      deleteBeforeEqual ops ∨ insertThenDelete ops := by
  constructor
  · rintro ⟨i, j, hij, hj, hins, hdel, hne⟩
    cases i with
    | zero =>
      cases j with
      | zero => omega
      | succ j =>
        refine Or.inl ⟨j, by simpa using hj, by simpa using hdel, ?_⟩
        intro k hk
        simpa using hne (k + 1) (by omega) (by omega)
    | succ i =>
      cases j with
      | zero => omega
      | succ j =>
        refine Or.inr ⟨i, j, by omega, by simpa using hj, by simpa using hins,
          by simpa using hdel, ?_⟩
        intro k hk1 hk2
        simpa using hne (k + 1) (by omega) (by omega)
  · rintro (⟨j, hj, hdel, hne⟩ | ⟨i, j, hij, hj, hins, hdel, hne⟩)
    · refine ⟨0, j + 1, by omega, by simpa using hj, by simp, by simpa using hdel, ?_⟩
      intro k hk1 hk2
      cases k with
      | zero => omega
      | succ k => simpa using hne k (by omega)
    · refine ⟨i + 1, j + 1, by omega, by simpa using hj, by simpa using hins,
        by simpa using hdel, ?_⟩
      intro k hk1 hk2
      cases k with
      | zero => omega
      | succ k => simpa using hne k (by omega) (by omega)

theorem hasBadDelete_iff_aux :
    ∀ (ops : List DiffOp) (f : Bool),
      hasBadDelete f ops = true ↔
        ((f = true ∧ deleteBeforeEqual ops) ∨ insertThenDelete ops) := by
  intro ops
  induction ops with
  | nil =>
    intro f
    simp only [hasBadDelete]
    constructor
    · intro h; cases h
    · rintro (⟨_, j, hj, _⟩ | ⟨i, j, _, hj, _⟩) <;> simp at hj
  | cons op ops ih =>
    intro f
    cases op with
    | delete =>
      simp only [hasBadDelete, Bool.or_eq_true, ih,
        itd_cons_of_ne_insert DiffOp.delete ops (by simp)]
      constructor
      · rintro (hf | h)
        · exact Or.inl ⟨hf, dbe_cons_delete ops⟩
        · rcases h with ⟨hfalse, _⟩ | h
          · cases hfalse
          · exact Or.inr h
      · rintro (⟨hf, _⟩ | h)
        · exact Or.inl hf
        · exact Or.inr (Or.inr h)
    | insert =>
      simp only [hasBadDelete, ih, itd_cons_insert, dbe_cons_insert]
      constructor
      · rintro (⟨_, h⟩ | h)
        · exact Or.inr (Or.inl h)
        · exact Or.inr (Or.inr h)
      · rintro (⟨hf, h⟩ | h | h)
        · exact Or.inl ⟨by trivial, h⟩
        · exact Or.inl ⟨by trivial, h⟩
        · exact Or.inr h
    | equal =>
      simp only [hasBadDelete, ih, itd_cons_of_ne_insert DiffOp.equal ops (by simp)]
      constructor
      · rintro (⟨hfalse, _⟩ | h)
        · cases hfalse
        · exact Or.inr h
      · rintro (⟨_, h⟩ | h)
        · exact absurd h (dbe_cons_equal ops)
        · exact Or.inr h

theorem hasBadDelete_iff_insert_then_delete (ops : List DiffOp) :
    hasBadDelete false ops = true ↔ insertThenDelete ops := by
  rw [hasBadDelete_iff_aux]
  simp

/-- Claim C9: the synthesizer fails (raising the internal error, producing
no edit list) exactly when some Delete primitive is reached while the
edit in progress is not a Delete — equivalently, exactly when some Delete
primitive follows some Insert primitive (possibly already upgraded to
Replace) with no intervening Equal; on every other primitive ordering it
never fails. -/
theorem delete_after_insert_fails_fast :
    ∀ (before : List Char) (diffs : List DiffPrim) (startLine : Int),
      exceptIsError (getTextEditsInternal before diffs startLine) =
        hasBadDelete false (diffs.map Prod.fst) ∧
      (exceptIsError (getTextEditsInternal before diffs startLine) = true ↔
        insertThenDelete (diffs.map Prod.fst)) := by
  intro before diffs startLine
  have h1 : exceptIsError (getTextEditsInternal before diffs startLine) =
      hasBadDelete false (diffs.map Prod.fst) := by
    unfold getTextEditsInternal
    rw [processDiffs_error_iff]
    rfl
  exact ⟨h1, by rw [h1, hasBadDelete_iff_insert_then_delete]⟩

theorem parseLines_error_iff :
    ∀ (ls : List (List Char)) (cur : Option Patch) (done : List Patch),
      exceptIsError (parseLines ls cur done) = specFails cur.isNone ls := by
  intro ls
  induction ls with
  | nil => intro cur done; cases cur <;> simp [parseLines, specFails, exceptIsError]
  | cons l rest ih =>
    intro cur done
    cases cur with
    | none =>
      cases hm : matchHeader l with
      | none => simp [parseLines, specFails, hm, exceptIsError]
      | some m => simp [parseLines, specFails, hm, ih]
    | some p =>
      rcases hh : l.head? with _ | c
      · simp [parseLines, specFails, hh, contentLineOk, ih]
      · by_cases h1 : c = '-'
        · subst h1; simp [parseLines, specFails, hh, contentLineOk, ih]
        · by_cases h2 : c = '+'
          · subst h2; simp [parseLines, specFails, hh, contentLineOk, ih]
          · by_cases h3 : c = ' '
            · subst h3; simp [parseLines, specFails, hh, contentLineOk, ih]
            · by_cases h4 : c = '@'
              · subst h4
                cases hm : matchHeader l with
                | none =>
                  simp [parseLines, specFails, hh, hm, exceptIsError]
                | some m =>
                  simp [parseLines, specFails, hh, hm, ih]
              · simp [parseLines, specFails, hh, contentLineOk, h1, h2, h3, h4,
                  exceptIsError]

/-- Claim C7: the parser `patch_fromText` fails exactly when a line expected to be a
hunk header does not match the header grammar, or a content line's
leading character is none of `-`, `+`, space, `@`, or empty.  `-`, `+`
and space lines produce Delete, Insert and Equal primitives, an empty
line produces nothing, and a `@` line starts the next patch; the input
`"not a header\n"` raises the malformed-patch error. -/
theorem parser_error_characterization :
    (∀ t : List Char,
      exceptIsError (patch_fromText t) =
        (!(List.isEmpty t) && specFails true (splitCRLF t))) ∧
    patch_fromText (String.data "not a header\n") =
      .error "Invalid patch string: not a header" ∧
    patch_fromText (String.data "@@ -1,2 +1,2 @@\n-a\n+b\n c\n\n@@ -1 +1 @@\n x") =
      .ok [⟨[(DiffOp.delete, ['a']), (DiffOp.insert, ['b']), (DiffOp.equal, ['c'])],
            0, 0, 2, 2⟩,
           ⟨[(DiffOp.equal, ['x'])], 0, 0, 1, 1⟩] := by
  refine ⟨?_, rfl, rfl⟩
  intro t
  unfold patch_fromText
  by_cases h : t = []
  · subst h; simp [exceptIsError]
  · rw [if_neg h, parseLines_error_iff]
    simp [List.isEmpty_iff, h]

theorem matchMarker_cons_ne {c : Char} (rest : List Char) (h : c ≠ '\\') :
    matchMarker (c :: rest) = none := by
  unfold matchMarker
  rw [show markerChars.isPrefixOf (c :: rest) =
      (('\\' : Char) == c && (String.data " No newline at end of file").isPrefixOf rest)
      from rfl]
  have hb : (('\\' : Char) == c) = false := by
    rw [beq_eq_false_iff_ne]
    exact fun e => h e.symm
  simp [hb]

theorem matchMarker_at_marker (post : List Char) :
    matchMarker (markerChars ++ '\n' :: post) = some post := by
  unfold matchMarker
  have h1 : markerChars.isPrefixOf (markerChars ++ '\n' :: post) = true := by
    rw [ List.isPrefixOf_iff_prefix]
    exact List.prefix_append _ _
  simp [h1, List.drop_left]

/-- Claim C8, counterexample: the marker replacement is not global — for a
patch text containing two `\ No newline at end of file` marker lines,
pre-processing leaves the second one in place (and the pipeline then
rejects the surviving marker line as an invalid sign). -/
theorem preprocess_second_marker_survives :
    containsMarker (preprocess (String.data
      "@@ -1 +1 @@\n-a\n\\ No newline at end of file\n+b\n\\ No newline at end of file\n"))
      = true ∧
    getTextEditsFromPatch (String.data "a\n") (String.data
      "@@ -1 +1 @@\n-a\n\\ No newline at end of file\n+b\n\\ No newline at end of file\n")
      = .error "Invalid patch mode '\\' in:  No newline at end of file" :=
  ⟨rfl, rfl⟩

/-- Claim C8, amended: before parsing, the pipeline strips everything up to
the first `@@` when the text begins with a `---`/`+++` file-header block,
and strips the *first* `\ No newline at end of file` marker line (with
its terminator) entirely — later occurrences are left in place.  A text
whose leading characters before the marker contain no backslash has
exactly that first marker removed; marker-free text is unchanged; a patch
text with a single marker line parses to primitives with no trace of it. -/
theorem preprocess_strips_first_marker :
    (∀ pre post : List Char, '\\' ∉ pre →
      stripFirstMarker (pre ++ markerChars ++ '\n' :: post) = pre ++ post) ∧
    (∀ p : List Char, containsMarker p = false → stripFirstMarker p = p) ∧
    (∀ p : List Char, ['-', '-', '-'].isPrefixOf p = false → stripHeaderBlock p = p) ∧
    preprocess (String.data "--- a\n+++ b\n@@ -1 +1 @@\n-a\n+b\n") =
      String.data "@@ -1 +1 @@\n-a\n+b\n" ∧
    patch_fromText (preprocess (String.data
        "@@ -1 +1 @@\n-a\n\\ No newline at end of file\n+b\n")) =
      .ok [⟨[(DiffOp.delete, ['a']), (DiffOp.insert, ['b'])], 0, 0, 1, 1⟩] := by
  refine ⟨?_, ?_, ?_, rfl, rfl⟩
  · intro pre post h
    induction pre with
    | nil =>
      simp only [List.nil_append]
      cases hcs : markerChars ++ '\n' :: post with
      | nil => simp [markerChars] at hcs
      | cons c R =>
        rw [stripFirstMarker, ← hcs, matchMarker_at_marker]
    | cons c pre ih =>
      have hc : c ≠ '\\' := fun e => h (e ▸ List.mem_cons_self c pre)
      have hpre : '\\' ∉ pre := fun e => h (List.mem_cons_of_mem c e)
      simp only [List.cons_append]
      rw [stripFirstMarker, matchMarker_cons_ne _ hc, ih hpre]
  · intro p
    induction p with
    | nil => intro _; rfl
    | cons c rest ih =>
      intro h
      rw [containsMarker] at h
      simp only [Bool.or_eq_false_iff] at h
      have hnone : matchMarker (c :: rest) = none :=
        Option.not_isSome_iff_eq_none.mp (by simp [h.1])
      rw [stripFirstMarker, hnone, ih h.2]
  · intro p h
    simp [stripHeaderBlock, h]

theorem preprocess_strips_first_marker_witness :
    ('\\' ∉ (String.data "x ")) ∧
      stripFirstMarker (String.data "x " ++ markerChars ++ '\n' :: String.data "y") =
        String.data "x " ++ String.data "y" :=
  ⟨by decide, preprocess_strips_first_marker.1 (String.data "x ") (String.data "y")
    (by decide)⟩

theorem posLe_refl (p : Position) : posLe p p := Or.inr ⟨rfl, le_refl _⟩

theorem posLe_trans {p q r : Position} (h1 : posLe p q) (h2 : posLe q r) : posLe p r := by
  rcases h1 with h1 | ⟨e1, le1⟩ <;> rcases h2 with h2 | ⟨e2, le2⟩
  · exact Or.inl (lt_trans h1 h2)
  · exact Or.inl (e2 ▸ h1)
  · exact Or.inl (e1 ▸ h2)
  · exact Or.inr ⟨e1.trans e2, le1.trans le2⟩

theorem advanceChar_posLe (t : List Char) :
    ∀ (l : Int) (c : Nat),
      posLe ⟨l, c⟩ ⟨(advanceChar l c t).1, (advanceChar l c t).2⟩ := by
  induction t with
  | nil => intro l c; exact posLe_refl _
  | cons ch t ih =>
    intro l c
    by_cases h : ch = '\n'
    · rw [advanceChar, if_pos h]
      refine posLe_trans ?_ (ih (l + 1) 0)
      exact Or.inl (by show l < l + 1; omega)
    · rw [advanceChar, if_neg h]
      refine posLe_trans ?_ (ih l (c + 1))
      exact Or.inr ⟨rfl, by show c ≤ c + 1; omega⟩

theorem processDiffs_sorted_inv (diffs : List DiffPrim) :
    ∀ (l : Int) (c : Nat) (edit : Option Edit) (edits res : List Edit),
      processDiffs diffs l c edit edits = .ok res →
      edits.Pairwise (fun a b => posLe (editEnd a) b.start) →
      (∀ a ∈ edits, posLe a.start (editEnd a)) →
      (∀ a ∈ edits, posLe (editEnd a)
        (match edit with | some e₀ => e₀.start | none => (⟨l, c⟩ : Position))) →
      (∀ e₀, edit = some e₀ → posLe e₀.start (editEnd e₀) ∧ posLe (editEnd e₀) ⟨l, c⟩) →
      res.Pairwise (fun a b => posLe (editEnd a) b.start) ∧
        ∀ a ∈ res, posLe a.start (editEnd a) := by
  induction diffs with
  | nil =>
    intro l c edit edits res h hp hw hb ho
    cases edit with
    | none =>
      simp only [processDiffs, Except.ok.injEq] at h
      subst h
      exact ⟨hp, hw⟩
    | some e =>
      simp only [processDiffs, Except.ok.injEq] at h
      subst h
      obtain ⟨hoW, _⟩ := ho e rfl
      refine ⟨List.pairwise_append.mpr ⟨hp, List.pairwise_singleton _ _, ?_⟩, ?_⟩
      · intro a ha b hbm
        simp only [List.mem_singleton] at hbm
        subst hbm
        exact hb a ha
      · intro a ha
        rcases List.mem_append.mp ha with ha | ha
        · exact hw a ha
        · simp only [List.mem_singleton] at ha
          subst ha
          exact hoW
  | cons d rest ih =>
    intro l c edit edits res h hp hw hb ho
    obtain ⟨op, t⟩ := d
    have hadv := advanceChar_posLe t l c
    cases op with
    | delete =>
      cases edit with
      | none =>
        simp only [processDiffs] at h
        refine ih _ _ _ _ _ h hp hw (fun a ha => hb a ha) ?_
        intro e₀ he
        injection he with he
        subst he
        exact ⟨by simpa [editEnd] using hadv, by simp [editEnd, posLe_refl]⟩
      | some e =>
        by_cases hd : e.action = EditAction.Delete
        · simp only [processDiffs, hd, if_true] at h
          obtain ⟨hoW, hoC⟩ := ho e rfl
          refine ih _ _ _ _ _ h hp hw (fun a ha => hb a ha) ?_
          intro e₀ he
          injection he with he
          subst he
          constructor
          · simp only [editEnd, Option.getD_some]
            exact posLe_trans (posLe_trans hoW hoC) hadv
          · simp [editEnd, posLe_refl]
        · simp only [processDiffs, hd, if_false] at h
          cases h
    | insert =>
      cases edit with
      | none =>
        simp only [processDiffs] at h
        refine ih _ _ _ _ _ h hp hw (fun a ha => hb a ha) ?_
        intro e₀ he
        injection he with he
        subst he
        exact ⟨by simp [editEnd, posLe_refl], by simp [editEnd, posLe_refl]⟩
      | some e =>
        simp only [processDiffs] at h
        by_cases hd : e.action = EditAction.Delete
        · rw [if_pos hd] at h
          obtain ⟨hoW, hoC⟩ := ho e rfl
          refine ih _ _ _ _ _ h hp hw (fun a ha => hb a ha) ?_
          intro e₀ he
          injection he with he
          subst he
          exact ⟨hoW, hoC⟩
        · rw [if_neg hd] at h
          obtain ⟨hoW, hoC⟩ := ho e rfl
          refine ih _ _ _ _ _ h hp hw (fun a ha => hb a ha) ?_
          intro e₀ he
          injection he with he
          subst he
          exact ⟨hoW, hoC⟩
    | equal =>
      cases edit with
      | none =>
        simp only [processDiffs] at h
        refine ih _ _ _ _ _ h hp hw (fun a ha => posLe_trans (hb a ha) hadv) (by simp)
      | some e =>
        simp only [processDiffs] at h
        obtain ⟨hoW, hoC⟩ := ho e rfl
        refine ih _ _ _ _ _ h ?_ ?_ ?_ (by simp)
        · refine List.pairwise_append.mpr ⟨hp, List.pairwise_singleton _ _, ?_⟩
          intro a ha b hbm
          simp only [List.mem_singleton] at hbm
          subst hbm
          exact hb a ha
        · intro a ha
          rcases List.mem_append.mp ha with ha | ha
          · exact hw a ha
          · simp only [List.mem_singleton] at ha
            subst ha
            exact hoW
        · intro a ha
          rcases List.mem_append.mp ha with ha | ha
          · exact posLe_trans (hb a ha) (posLe_trans (posLe_trans hoW hoC) hadv)
          · simp only [List.mem_singleton] at ha
            subst ha
            exact posLe_trans hoC hadv

/-- Claim C2: for every patch the synthesizer completes on, the returned
edit sequence has non-decreasing start positions in document order, and
the original-document spans of distinct edits are disjoint (each edit
ends, in document order, no later than the next one starts). -/
theorem edits_sorted_and_disjoint :
    ∀ (before : List Char) (diffs : List DiffPrim) (startLine : Int) (edits : List Edit),
      getTextEditsInternal before diffs startLine = .ok edits →
      edits.Pairwise (fun a b => posLe a.start b.start ∧ posLe (editEnd a) b.start) := by
  intro before diffs startLine edits h
  obtain ⟨hp, hw⟩ := processDiffs_sorted_inv diffs startLine _ none [] edits h
    (by simp) (by simp) (by simp) (by simp)
  exact hp.imp_of_mem (fun {a b} ha hbm hr => ⟨posLe_trans (hw a ha) hr, hr⟩)

theorem edits_sorted_and_disjoint_witness :
    getTextEditsInternal (String.data "a\nb\n")
        [(DiffOp.delete, String.data "a\n"), (DiffOp.equal, String.data "b\n"),
         (DiffOp.insert, String.data "c\n")] 0 =
      .ok [⟨EditAction.Delete, ⟨0, 0⟩, some ⟨1, 0⟩, []⟩,
           ⟨EditAction.Insert, ⟨2, 0⟩, none, String.data "c\n"⟩] ∧
    ([⟨EditAction.Delete, ⟨0, 0⟩, some ⟨1, 0⟩, []⟩,
      ⟨EditAction.Insert, ⟨2, 0⟩, none, String.data "c\n"⟩] : List Edit).Pairwise
      (fun a b => posLe a.start b.start ∧ posLe (editEnd a) b.start) :=
  ⟨rfl, edits_sorted_and_disjoint (String.data "a\nb\n")
    [(DiffOp.delete, String.data "a\n"), (DiffOp.equal, String.data "b\n"),
     (DiffOp.insert, String.data "c\n")] 0 _ rfl⟩

theorem count_take_succ (doc : List Char) (n : Nat) (ch : Char)
    (hg : doc.get? n = some ch) :
    ((doc.take (n + 1)).count '\n') =
      (doc.take n).count '\n' + (if ch = '\n' then 1 else 0) := by
  have hx : doc[n]? = some ch := by
    rw [← List.get?_eq_getElem?]; exact hg
  rw [List.take_succ, hx]
  simp only [Option.toList_some, List.count_append, List.count_singleton]
  by_cases h : ch = '\n' <;> simp [h]

theorem lineStartOffset_succ_newline :
    ∀ (doc : List Char) (n : Nat), doc.get? n = some '\n' →
      lineStartOffset doc ((doc.take n).count '\n' + 1) = n + 1 := by
  intro doc
  induction doc with
  | nil => intro n h; simp at h
  | cons c rest ih =>
    intro n h
    cases n with
    | zero =>
      simp only [List.get?] at h
      injection h with h
      subst h
      simp [lineStartOffset]
    | succ n =>
      simp only [List.get?] at h
      by_cases hc : c = '\n'
      · subst hc
        have hcnt : ((('\n') :: rest).take (n + 1)).count '\n' =
            ((rest.take n).count '\n' + 1) := by
          rw [List.take_succ_cons, List.count_cons]
          simp
        rw [hcnt, lineStartOffset, if_pos rfl, ih n h]
        omega
      · have hcnt : ((c :: rest).take (n + 1)).count '\n' = (rest.take n).count '\n' := by
          rw [List.take_succ_cons, List.count_cons]
          simp [hc]
        rw [hcnt, lineStartOffset, if_neg hc, ih n h]
        omega

theorem validPos_step_other {doc : List Char} {l : Int} {c n : Nat} {ch : Char}
    (hv : ValidPos doc l c n) (hg : doc.get? n = some ch) (hch : ch ≠ '\n') :
    ValidPos doc l (c + 1) (n + 1) := by
  obtain ⟨hlen, hl, hn⟩ := hv
  have hlt : n < doc.length := (List.get?_eq_some.mp hg).1
  have hcnt : ((doc.take (n + 1)).count '\n') = (doc.take n).count '\n' := by
    rw [count_take_succ doc n ch hg, if_neg hch]
    omega
  exact ⟨hlt, by rw [hcnt]; exact hl, by rw [hcnt]; omega⟩

theorem validPos_zero (doc : List Char) : ValidPos doc 0 0 0 := by
  refine ⟨Nat.zero_le _, ?_, ?_⟩ <;> simp [lineStartOffset]

theorem validPos_step_newline {doc : List Char} {l : Int} {c n : Nat}
    (hv : ValidPos doc l c n) (hg : doc.get? n = some '\n') :
    ValidPos doc (l + 1) 0 (n + 1) := by
  obtain ⟨hlen, hl, hn⟩ := hv
  have hlt : n < doc.length := (List.get?_eq_some.mp hg).1
  have hcnt : ((doc.take (n + 1)).count '\n') = (doc.take n).count '\n' + 1 := by
    rw [count_take_succ doc n '\n' hg]
    simp
  refine ⟨hlt, ?_, ?_⟩
  · rw [hcnt]; push_cast; omega
  · rw [hcnt, lineStartOffset_succ_newline doc n hg]

theorem advanceChar_valid :
    ∀ (t doc : List Char) (l : Int) (c n : Nat),
      ValidPos doc l c n → doc.drop n = t ++ doc.drop (n + t.length) →
      ValidPos doc (advanceChar l c t).1 (advanceChar l c t).2 (n + t.length) := by
  intro t
  induction t with
  | nil => intro doc l c n hv _; simpa [advanceChar] using hv
  | cons ch t ih =>
    intro doc l c n hv hd
    have hg : doc.get? n = some ch := by
      have := List.get?_drop doc n 0
      rw [hd] at this
      simpa using this.symm
    have hd' : doc.drop (n + 1) = t ++ doc.drop ((n + 1) + t.length) := by
      have ht := List.tail_drop doc n
      rw [hd] at ht
      rw [← ht]
      simp only [List.cons_append, List.tail_cons, List.length_cons]
      have harith : n + (t.length + 1) = n + 1 + t.length := by omega
      rw [harith]
    by_cases hc : ch = '\n'
    · subst hc
      rw [advanceChar, if_pos rfl]
      have := ih doc (l + 1) 0 (n + 1) (validPos_step_newline hv hg) hd'
      have harith : (n + 1) + t.length = n + (t.length + 1) := by omega
      rw [harith] at this
      simpa using this
    · rw [advanceChar, if_neg hc]
      have := ih doc l (c + 1) (n + 1) (validPos_step_other hv hg hc) hd'
      have harith : (n + 1) + t.length = n + (t.length + 1) := by omega
      rw [harith] at this
      simpa using this

theorem posToOffset_valid {doc : List Char} {l : Int} {c n : Nat}
    (h : ValidPos doc l c n) : posToOffset doc ⟨l, c⟩ = n := by
  obtain ⟨_, hl, hn⟩ := h
  unfold posToOffset
  show lineStartOffset doc l.toNat + c = n
  rw [hl, Int.toNat_natCast]
  omega

theorem drop_eq_append {doc t r : List Char} {n : Nat} (hr : doc.drop n = t ++ r) :
    doc.drop n = t ++ doc.drop (n + t.length) := by
  have : doc.drop (n + t.length) = r := by
    rw [← List.drop_drop, hr, List.drop_left]
  rw [this, hr]

theorem applyEditsFrom_skip (doc t : List Char) (n : Nat) (res : List Edit)
    (hd : doc.drop n = t ++ doc.drop (n + t.length))
    (hres : match res with | [] => True | e :: _ => n + t.length ≤ editStartOff doc e) :
    applyEditsFrom doc n res = t ++ applyEditsFrom doc (n + t.length) res := by
  cases res with
  | nil => simpa [applyEditsFrom] using hd
  | cons e r =>
    simp only [applyEditsFrom]
    have hs : n + t.length ≤ editStartOff doc e := hres
    rw [hd]
    have harith : editStartOff doc e - n = t.length + (editStartOff doc e - (n + t.length)) := by
      omega
    rw [harith, List.take_append]
    simp [List.append_assoc]

theorem processDiffs_acc (diffs : List DiffPrim) :
    ∀ (l : Int) (c : Nat) (edit : Option Edit) (edits : List Edit),
      processDiffs diffs l c edit edits =
        (processDiffs diffs l c edit []).map (fun es => edits ++ es) := by
  induction diffs with
  | nil =>
    intro l c edit edits
    cases edit <;> simp [processDiffs, Except.map]
  | cons d rest ih =>
    intro l c edit edits
    obtain ⟨op, t⟩ := d
    cases op with
    | delete =>
      cases edit with
      | none =>
        simp only [processDiffs]
        exact ih _ _ _ edits
      | some e =>
        by_cases hd : e.action = EditAction.Delete
        · simp only [processDiffs, hd, if_true]
          exact ih _ _ _ edits
        · simp only [processDiffs, hd, if_false]
          rfl
    | insert =>
      cases edit with
      | none =>
        simp only [processDiffs]
        exact ih _ _ _ edits
      | some e =>
        simp only [processDiffs]
        exact ih _ _ _ edits
    | equal =>
      cases edit with
      | none =>
        simp only [processDiffs]
        exact ih _ _ _ edits
      | some e =>
        simp only [processDiffs]
        rw [ih _ _ _ (edits ++ [e]), ih _ _ _ ([] ++ [e])]
        cases processDiffs rest (advanceChar l c t).1 (advanceChar l c t).2 none [] <;>
          simp [Except.map, List.append_assoc]

theorem openEdit_offsets {doc : List Char} {e : Edit} {s n : Nat}
    (h : OpenEditInv doc e s n) :
    editStartOff doc e = s ∧ editEndOff doc e = n := by
  obtain ⟨hstart, hsn, hend⟩ := h
  have hso : editStartOff doc e = s := posToOffset_valid hstart
  refine ⟨hso, ?_⟩
  rcases hp : e.endPos with _ | q
  · rcases ha : e.action
    all_goals rw [ha, hp] at hend
    · exact hend.elim
    · simp only [editEndOff, editEnd, hp, Option.getD_none]
      rw [show posToOffset doc e.start = s from hso]
      omega
    · exact hend.elim
  · rcases ha : e.action
    all_goals rw [ha, hp] at hend
    · simp only [editEndOff, editEnd, hp, Option.getD_some]
      exact posToOffset_valid hend
    · exact hend.elim
    · simp only [editEndOff, editEnd, hp, Option.getD_some]
      exact posToOffset_valid hend

theorem processDiffs_roundtrip (doc : List Char) :
    ∀ (diffs : List DiffPrim) (l : Int) (c n s : Nat) (edit : Option Edit) (res : List Edit),
      ValidPos doc l c n →
      originConcat diffs = doc.drop n →
      (match edit with
       | none => s = n
       | some e => OpenEditInv doc e s n) →
      processDiffs diffs l c edit [] = .ok res →
      applyEditsFrom doc s res =
        (match edit with | none => ([] : List Char) | some e => e.text) ++ resultConcat diffs ∧
      (match res with | [] => True | e₁ :: _ => s ≤ editStartOff doc e₁) := by
  intro diffs
  induction diffs with
  | nil =>
    intro l c n s edit res hv horig hinv h
    have hdrop : doc.drop n = [] := horig.symm
    cases edit with
    | none =>
      simp only [processDiffs, Except.ok.injEq] at h
      subst h
      subst hinv
      exact ⟨by simpa [applyEditsFrom, resultConcat] using hdrop, trivial⟩
    | some e =>
      simp only [processDiffs, List.nil_append, Except.ok.injEq] at h
      subst h
      obtain ⟨hso, heo⟩ := openEdit_offsets hinv
      constructor
      · simp only [applyEditsFrom, hso, Nat.sub_self, List.take_zero, heo, hdrop]
        simp [resultConcat]
      · show s ≤ editStartOff doc e
        omega
  | cons d rest ih =>
    intro l c n s edit res hv horig hinv h
    obtain ⟨op, t⟩ := d
    cases op with
    | equal =>
      have horig' : t ++ originConcat rest = doc.drop n := by
        simpa [originConcat] using horig
      have hd : doc.drop n = t ++ doc.drop (n + t.length) := drop_eq_append horig'.symm
      have horest : originConcat rest = doc.drop (n + t.length) :=
        List.append_cancel_left (horig'.trans hd)
      have hv' := advanceChar_valid t doc l c n hv hd
      cases edit with
      | none =>
        subst hinv
        simp only [processDiffs] at h
        obtain ⟨ih1, ih2⟩ := ih _ _ (s + t.length) (s + t.length) none res hv' horest rfl h
        constructor
        · rw [applyEditsFrom_skip doc t s res hd ih2, ih1]
          simp [resultConcat]
        · cases res with
          | nil => trivial
          | cons e₁ r₁ =>
            show s ≤ editStartOff doc e₁
            have : s + t.length ≤ editStartOff doc e₁ := ih2
            omega
      | some e =>
        obtain ⟨hso, heo⟩ := openEdit_offsets hinv
        simp only [processDiffs, List.nil_append] at h
        rw [processDiffs_acc] at h
        cases hres2 : processDiffs rest (advanceChar l c t).1 (advanceChar l c t).2 none [] with
        | error msg => rw [hres2] at h; simp [Except.map] at h
        | ok res₂ =>
          rw [hres2] at h
          simp only [Except.map, Except.ok.injEq, List.cons_append, List.nil_append,
            List.append_eq] at h
          subst h
          obtain ⟨ih1, ih2⟩ := ih _ _ (n + t.length) (n + t.length) none res₂ hv' horest rfl
            hres2
          constructor
          · simp only [applyEditsFrom, hso, Nat.sub_self, List.take_zero, heo,
              List.nil_append]
            rw [applyEditsFrom_skip doc t n res₂ hd ih2, ih1]
            simp [resultConcat]
          · show s ≤ editStartOff doc e
            omega
    | delete =>
      have horig' : t ++ originConcat rest = doc.drop n := by
        simpa [originConcat] using horig
      have hd : doc.drop n = t ++ doc.drop (n + t.length) := drop_eq_append horig'.symm
      have horest : originConcat rest = doc.drop (n + t.length) :=
        List.append_cancel_left (horig'.trans hd)
      have hv' := advanceChar_valid t doc l c n hv hd
      cases edit with
      | none =>
        subst hinv
        simp only [processDiffs] at h
        have key := fun hinvx => ih _ _ (s + t.length) s _ res hv' horest hinvx h
        obtain ⟨ih1, ih2⟩ := key ⟨hv, Nat.le_add_right _ _, hv'⟩
        constructor
        · rw [ih1]
          simp [resultConcat]
        · exact ih2
      | some e =>
        by_cases hdel : e.action = EditAction.Delete
        · simp only [processDiffs, hdel, if_true] at h
          obtain ⟨hstart, hsn, hend⟩ := hinv
          have key := fun hinvx => ih _ _ (n + t.length) s _ res hv' horest hinvx h
          obtain ⟨ih1, ih2⟩ := key (by
            refine ⟨hstart, by omega, ?_⟩
            simp only [hdel]
            exact hv')
          constructor
          · rw [ih1]
            simp [resultConcat]
          · exact ih2
        · simp only [processDiffs, hdel, if_false] at h
          cases h
    | insert =>
      have horig' : originConcat rest = doc.drop n := by
        simpa [originConcat] using horig
      cases edit with
      | none =>
        subst hinv
        simp only [processDiffs, List.nil_append] at h
        have key := fun hinvx => ih _ _ s s _ res hv horig' hinvx h
        obtain ⟨ih1, ih2⟩ := key ⟨hv, le_refl _, rfl⟩
        constructor
        · rw [ih1]
          simp [resultConcat]
        · exact ih2
      | some e =>
        obtain ⟨hstart, hsn, hend⟩ := hinv
        by_cases hdel : e.action = EditAction.Delete
        · simp only [processDiffs, hdel, if_true] at h
          rcases hp : e.endPos with _ | q
          · rw [hdel, hp] at hend
            exact hend.elim
          · rw [hdel, hp] at hend
            have key := fun hinvx => ih _ _ n s _ res hv horig' hinvx h
            obtain ⟨ih1, ih2⟩ := key (by
              refine ⟨hstart, hsn, ?_⟩
              simp only [hp]
              exact hend)
            constructor
            · rw [ih1]
              simp [resultConcat, List.append_assoc]
            · exact ih2
        · simp only [processDiffs, hdel, if_false] at h
          have key := fun hinvx => ih _ _ n s _ res hv horig' hinvx h
          obtain ⟨ih1, ih2⟩ := key ⟨hstart, hsn, hend⟩
          constructor
          · rw [ih1]
            simp [resultConcat, List.append_assoc]
          · exact ih2

/-- Claim C1: for every original document and every whole-document patch
(the Equal and Delete payloads concatenate to the original text, starting
at line 0) on which the synthesizer succeeds, applying the synthesized
edit sequence to the original document yields exactly the document the
diff sequence describes: the concatenation, in order, of all Equal and
Insert payloads. -/
theorem synthesized_edits_roundtrip :
    ∀ (before : List Char) (diffs : List DiffPrim) (res : List Edit),
      originConcat diffs = before →
      getTextEditsInternal before diffs 0 = .ok res →
      applyEdits before res = resultConcat diffs := by
  intro before diffs res horig h
  unfold getTextEditsInternal at h
  rw [show initialCharacter before 0 = 0 from rfl] at h
  obtain ⟨h1, _⟩ := processDiffs_roundtrip before diffs 0 0 0 0 none res
    (validPos_zero before) (by simpa using horig) rfl h
  simpa [applyEdits] using h1

theorem synthesized_edits_roundtrip_witness :
    originConcat [(DiffOp.equal, String.data "ab\n"), (DiffOp.delete, String.data "cd\n"),
        (DiffOp.insert, String.data "xy\n")] = String.data "ab\ncd\n" ∧
    applyEdits (String.data "ab\ncd\n")
        [⟨EditAction.Replace, ⟨1, 0⟩, some ⟨2, 0⟩, String.data "xy\n"⟩] =
      String.data "ab\nxy\n" :=
  ⟨rfl, by
    exact synthesized_edits_roundtrip (String.data "ab\ncd\n")
      [(DiffOp.equal, String.data "ab\n"), (DiffOp.delete, String.data "cd\n"),
       (DiffOp.insert, String.data "xy\n")] _ rfl rfl⟩

end CocPyright
